import Mathlib

/-!
Verification of the masked-token generative decoding loop of the
Mage-Spot repository (`gen_img_cond.py`, `models_mage_decoder.py`).

The decoding loop (`gen_image`) is embedded shallowly: the neural
components (token embedder, transformer blocks, slot attention,
vqgan codec) are opaque functions, while the token bookkeeping —
masking state, merge, cosine mask schedule, confidence scores with
the `+inf` sentinel, and the Gumbel-perturbed top-k remasking policy
(`mask_by_random_topk`) — is translated faithfully.  Floating point
is modelled by real numbers; the IEEE value `+inf` produced by
`_CONFIDENCE_OF_KNOWN_TOKENS = +np.inf` (and preserved by
`torch.log` and by adding finite noise) is modelled by `⊤ : EReal`.
-/

namespace MageSpot

/-- `codebook_size = 1024` in `gen_image` and in the model
(`config.params.n_embed`). -/
def codebook_size : ℕ := 1024

/-- `vocab_size = codebook_size + 1000 + 1` (codebook, 1000 class ids,
one mask token), from `MaskedGenerativeEncoderViT.__init__`. -/
def vocab_size : ℕ := codebook_size + 1000 + 1

/-- `mask_token_label = vocab_size - 1` (the reserved mask id, 2024). -/
def mask_token_id : ℕ := vocab_size - 1

/-- `fake_class_label = codebook_size + 1100 - 1024` (the class id put
at position 0 of the token sequence). -/
def fake_class_label : ℕ := codebook_size + 1100 - 1024

/-- The merge of newly sampled ids into the grid, line
`sampled_ids = torch.where(unknown_map, sampled_ids, cur_ids)` of
`gen_image` (with `unknown_map = (cur_ids == mask_token_id)`). -/
def merge_sampled (n : ℕ) (cur_ids sampled : Fin n → ℕ) : Fin n → ℕ :=
  fun i => if cur_ids i = mask_token_id then sampled i else cur_ids i

/-- The per-position confidence input to the remasking policy, line
`selected_probs = torch.where(unknown_map, selected_probs.double(),
_CONFIDENCE_OF_KNOWN_TOKENS)`: the gathered sampling probability at
positions that were masked entering the iteration, and the sentinel
`+inf` (here `⊤ : EReal`) at positions already resolved. -/
noncomputable def selected_probs_of (n : ℕ) (cur_ids : Fin n → ℕ) (prob : Fin n → ℝ) :
    Fin n → EReal :=
  fun i => if cur_ids i = mask_token_id then ((prob i : ℝ) : EReal) else ⊤

/-- The number of currently masked grid positions,
`torch.sum(unknown_map, dim=-1)`. -/
def unknown_count (n : ℕ) (cur_ids : Fin n → ℕ) : ℕ :=
  (Finset.univ.filter (fun i => cur_ids i = mask_token_id)).card

/-- The target masked count for the next iteration, lines
`mask_ratio = np.cos(math.pi / 2. * ratio)` with
`ratio = (step + 1) / num_iter`,
`mask_len = floor(unknown_number_in_the_beginning * mask_ratio)` and
`mask_len = max(1, min(sum(unknown_map) - 1, mask_len))` of
`gen_image`, with `L` the grid length, `num_iter` the iteration count,
`step` the 0-indexed iteration and `u` the current masked count. -/
noncomputable def mask_len_val (L num_iter step u : ℕ) : ℤ :=
  max 1 (min ((u : ℤ) - 1)
    ⌊(L : ℝ) * Real.cos (Real.pi / 2 * ((step + 1 : ℝ) / (num_iter : ℝ)))⌋)

/-- `torch.log` extended to the IEEE values the code feeds it: the
sentinel `+inf` maps to `+inf`, a probability `0` maps to `-inf`, and a
positive real maps to its natural logarithm. -/
noncomputable def elog (x : EReal) : EReal :=
  if x = ⊤ then ⊤ else if x.toReal ≤ 0 then ⊥ else ((Real.log x.toReal : ℝ) : EReal)

/-- The perturbed confidence of `mask_by_random_topk`, line
`confidence = torch.log(probs) + temperature * gumbel_noise`. -/
noncomputable def confidence (n : ℕ) (probs : Fin n → EReal) (temperature : ℝ)
    (noise : Fin n → ℝ) : Fin n → EReal :=
  fun i => elog (probs i) + ((temperature * noise i : ℝ) : EReal)

/-- `sorted_confidence, _ = torch.sort(confidence, axis=-1)` (ascending). -/
noncomputable def sorted_vals (n : ℕ) (conf : Fin n → EReal) : List EReal :=
  (List.ofFn conf).insertionSort (· ≤ ·)

/-- `cut_off = sorted_confidence[:, mask_len-1:mask_len]`: the
`mask_len`-th smallest perturbed confidence. -/
noncomputable def cut_off (n mask_len : ℕ) (conf : Fin n → EReal) : EReal :=
  (sorted_vals n conf).getD (mask_len - 1) ⊥

/-- `mask_by_random_topk(mask_len, probs, temperature)` of
`gen_img_cond.py`: perturb the log-probabilities with scaled Gumbel
noise, sort ascending, and mask exactly the positions whose perturbed
value is `≤` the `mask_len`-th smallest
(`masking = (confidence <= cut_off)`). -/
noncomputable def mask_by_random_topk (n mask_len : ℕ) (probs : Fin n → EReal)
    (temperature : ℝ) (noise : Fin n → ℝ) : Fin n → Bool :=
  fun i =>
    decide (confidence n probs temperature noise i ≤
      cut_off n mask_len (confidence n probs temperature noise))

/-- Remasking policy as the spec's §4.5 words it: perturb each
confidence score itself (not its logarithm) by adding the scaled
Gumbel noise.  Kept beside `mask_by_random_topk` to compare the two. -/
noncomputable def spec_confidence (n : ℕ) (probs : Fin n → EReal) (temperature : ℝ)
    (noise : Fin n → ℝ) : Fin n → EReal :=
  fun i => probs i + ((temperature * noise i : ℝ) : EReal)

/-- The spec-worded policy built on `spec_confidence`; the sort,
cutoff and `≤` comparison are as in the code. -/
noncomputable def spec_mask_by_topk (n mask_len : ℕ) (probs : Fin n → EReal)
    (temperature : ℝ) (noise : Fin n → ℝ) : Fin n → Bool :=
  fun i =>
    decide (spec_confidence n probs temperature noise i ≤
      cut_off n mask_len (spec_confidence n probs temperature noise))

/-- Everything one iteration of the `gen_image` loop produces:
the merged sampled ids (line `sampled_ids = torch.where(unknown_map,
sampled_ids, cur_ids)`), the confidence inputs, the target masked
count, the masking choice and the re-masked token state (line
`token_indices = torch.where(masking, mask_token_id, sampled_ids)`). -/
structure StepResult (n : ℕ) where
  sampled_ids : Fin n → ℕ
  selected_probs : Fin n → EReal
  mask_len : ℤ
  masking : Fin n → Bool
  token_indices : Fin n → ℕ

/-- One iteration of the decoding loop of `gen_image`, with the
neural parts abstracted: `sample i` is the id drawn from the
categorical distribution over the first `codebook_size` logits at
grid position `i` (hence `sample i < codebook_size` by construction),
`prob i` the softmax probability gathered at that id, and `noise i`
the Gumbel draw used by the remasking policy. -/
noncomputable def gen_step (n num_iter : ℕ) (choice_temperature : ℝ)
    (sample : Fin n → Fin codebook_size) (prob : Fin n → ℝ) (noise : Fin n → ℝ)
    (step : ℕ) (cur_ids : Fin n → ℕ) : StepResult n :=
  let sampled_ids : Fin n → ℕ := merge_sampled n cur_ids (fun i => (sample i : ℕ))
  let sp : Fin n → EReal := selected_probs_of n cur_ids prob
  let ml : ℤ := mask_len_val n num_iter step (unknown_count n cur_ids)
  let temp : ℝ := choice_temperature * (1 - (step + 1 : ℝ) / (num_iter : ℝ))
  let masking : Fin n → Bool := mask_by_random_topk n ml.toNat sp temp noise
  { sampled_ids := sampled_ids
    selected_probs := sp
    mask_len := ml
    masking := masking
    token_indices := fun i => if masking i then mask_token_id else sampled_ids i }

/-- The components of the model `gen_image` calls, as opaque
functions: `forward_encoder` (the image encoder), `slot_attention`
(first component of the object-centric bottleneck's output),
`encode_tokens` (token embedding + encoder blocks + norm, lines 67-73
of `gen_img_cond.py`), and the decoder's per-step sampling and
probability outputs given an encoder latent and slot vectors; `noise`
is the per-step Gumbel draw. -/
structure MageModel (n : ℕ) (Img Lat Slot : Type) where
  forward_encoder : Img → Lat
  slot_attention : Lat → Slot
  encode_tokens : (Fin (n + 1) → ℕ) → Lat
  decoder_sample : ℕ → Lat → Slot → Fin n → Fin codebook_size
  decoder_prob : ℕ → Lat → Slot → Fin n → ℝ
  noise : ℕ → Fin n → ℝ

/-- The slots `gen_image` computes before its loop:
`latent = model.forward_encoder(image)` then
`slots, attn, init_slots, attn_logits = model.slot_attention(latent)`. -/
def slots_used {n : ℕ} {Img Lat Slot : Type} (m : MageModel n Img Lat Slot)
    (img : Img) : Slot :=
  m.slot_attention (m.forward_encoder img)

/-- The token sequence entering an iteration: the class id prepended
to the grid (`token_indices[:, 0] = model.fake_class_label`). -/
def token_seq (n : ℕ) (cur_ids : Fin n → ℕ) : Fin (n + 1) → ℕ :=
  Fin.cons fake_class_label cur_ids

/-- One iteration of `gen_image` with the model plugged in: the
current grid (class token prepended) is embedded and encoded, the
decoder is run on that latent together with the given `slots`, and the
sampled ids, probabilities and noise drive `gen_step`. -/
noncomputable def gen_step_model {n : ℕ} {Img Lat Slot : Type} (num_iter : ℕ)
    (choice_temperature : ℝ) (m : MageModel n Img Lat Slot) (slots : Slot)
    (step : ℕ) (cur_ids : Fin n → ℕ) : StepResult n :=
  let lat : Lat := m.encode_tokens (token_seq n cur_ids)
  gen_step n num_iter choice_temperature (m.decoder_sample step lat slots)
    (m.decoder_prob step lat slots) (m.noise step) step cur_ids

/-- The token state of `gen_image` after `t` iterations: initially
`mask_token_id` everywhere, then each iteration's `token_indices`.
As in the source, every iteration is run with the slots computed once
before the loop (`slots_used`). -/
noncomputable def gen_tokens {n : ℕ} {Img Lat Slot : Type} (num_iter : ℕ)
    (choice_temperature : ℝ) (m : MageModel n Img Lat Slot) (img : Img) :
    ℕ → Fin n → ℕ
  | 0 => fun _ => mask_token_id
  | t + 1 =>
    (gen_step_model num_iter choice_temperature m (slots_used m img) t
      (gen_tokens num_iter choice_temperature m img t)).token_indices

/-- The grid handed to the vqgan decode after the loop:
`model.vqgan.quantize.get_codebook_entry(sampled_ids, ...)` uses the
last iteration's merged `sampled_ids`, taken before that iteration's
remasking. -/
noncomputable def gen_decode_input {n : ℕ} {Img Lat Slot : Type} (num_iter : ℕ)
    (choice_temperature : ℝ) (m : MageModel n Img Lat Slot) (img : Img) :
    Fin n → ℕ :=
  (gen_step_model num_iter choice_temperature m (slots_used m img) (num_iter - 1)
    (gen_tokens num_iter choice_temperature m img (num_iter - 1))).sampled_ids

/-- The slots the spec's claim says iteration `t` uses: the
object-centric bottleneck re-run on the encoder output of the token
sequence entering iteration `t`.  Kept beside `slots_used` to compare
the two. -/
noncomputable def fresh_slots_at {n : ℕ} {Img Lat Slot : Type} (num_iter : ℕ)
    (choice_temperature : ℝ) (m : MageModel n Img Lat Slot) (img : Img)
    (t : ℕ) : Slot :=
  m.slot_attention
    (m.encode_tokens (token_seq n (gen_tokens num_iter choice_temperature m img t)))

/-- Softmax over a finite index type, the numerically-stabilized
`attn.softmax(dim=-1)` of `Attention.forward` (subtracting the row
max does not change the value, so it is omitted). -/
noncomputable def softmax {k : ℕ} (z : Fin k → ℝ) : Fin k → ℝ :=
  fun i => Real.exp (z i) / ∑ j, Real.exp (z j)

/-- `num_slots = 7` of the slot-attention bottleneck. -/
def num_slots : ℕ := 7

/-- The decoder sequence length: `num_slots` slot positions followed
by the class token and the 256 grid positions. -/
def dec_len : ℕ := num_slots + 257

/-- The head-summed final-block attention of `forward_decoder`:
`atts = atts.sum(dim=1)` where each head's rows are softmax outputs. -/
noncomputable def atts_of_heads (H : ℕ) (scores : Fin H → Fin dec_len → Fin dec_len → ℝ) :
    Fin dec_len → Fin dec_len → ℝ :=
  fun a b => ∑ h, softmax (scores h a) b

/-- The normalized slot-assignment matrix of `forward_decoder`, lines
`atts_slots = atts[:,8:,:7]`, `atts_slots = atts_slots + epsilon`,
`sums = atts_slots.sum(dim=2, keepdim=True)`,
`normalized_atts_slots = atts_slots / sums`: one row per grid
position (offset 8 into the decoder sequence), one column per slot. -/
noncomputable def normalized_atts_slots (epsilon : ℝ)
    (atts : Fin dec_len → Fin dec_len → ℝ) : Fin 256 → Fin num_slots → ℝ :=
  fun t s =>
    (atts ⟨(t : ℕ) + 8, by simp only [dec_len, num_slots]; omega⟩
        ⟨(s : ℕ), by simp only [dec_len, num_slots]; omega⟩ + epsilon) /
      ∑ s' : Fin num_slots,
        (atts ⟨(t : ℕ) + 8, by simp only [dec_len, num_slots]; omega⟩
          ⟨(s' : ℕ), by simp only [dec_len, num_slots]; omega⟩ + epsilon)

/-- A constant sampler for concrete instantiations. -/
def sample0 (n : ℕ) : Fin n → Fin codebook_size :=
  fun _ => ⟨0, by norm_num [codebook_size]⟩

/-- A constant probability oracle for concrete instantiations. -/
noncomputable def prob_half (n : ℕ) : Fin n → ℝ := fun _ => 1 / 2

/-- The zero noise draw. -/
def noise0 (n : ℕ) : Fin n → ℝ := fun _ => 0

/-- The all-ones noise draw. -/
def noise1 (n : ℕ) : Fin n → ℝ := fun _ => 1

/-- A fully resolved 4-token grid (no mask ids). -/
def grid_resolved : Fin 4 → ℕ := ![5, 6, 7, 8]

/-- A 2-token grid with position 0 resolved and position 1 masked. -/
def grid_half_masked : Fin 2 → ℕ := ![5, mask_token_id]

/-- A concrete model on a 1-token grid whose token encoder reads the
grid token, for comparing the slots computed before the loop with
freshly recomputed ones. -/
noncomputable def modelC : MageModel 1 ℕ ℕ ℕ where
  forward_encoder := id
  slot_attention := id
  encode_tokens := fun s => s 1
  decoder_sample := fun _ _ _ => sample0 1
  decoder_prob := fun _ _ _ _ => 1 / 2
  noise := fun _ _ => 0

/-- Same as `modelC` except its token encoder reads the class token. -/
noncomputable def modelC2 : MageModel 1 ℕ ℕ ℕ where
  forward_encoder := id
  slot_attention := id
  encode_tokens := fun s => s 0
  decoder_sample := fun _ _ _ => sample0 1
  decoder_prob := fun _ _ _ _ => 1 / 2
  noise := fun _ _ => 0

/-- Concrete confidence inputs separating the code's policy from the
spec-worded one: probabilities 1/2 and 1/4. -/
noncomputable def probsC6 : Fin 2 → EReal :=
  ![((1 / 2 : ℝ) : EReal), ((1 / 4 : ℝ) : EReal)]

/-- Concrete noise draw for the same comparison. -/
noncomputable def noiseC6 : Fin 2 → ℝ := ![0, 3 / 10]

/-- Concrete probabilities for the zero-temperature policy instance. -/
noncomputable def probsC7 : Fin 2 → EReal := ![((1 : ℝ) : EReal), ((2 : ℝ) : EReal)]

/-!  Theorems.  -/

/-- `torch.log(inf) = inf`: the sentinel survives the logarithm. -/
lemma elog_top : elog ⊤ = ⊤ := if_pos rfl

/-- On a positive real probability, `elog` is the real logarithm. -/
lemma elog_coe_of_pos {x : ℝ} (hx : 0 < x) :
    elog ((x : ℝ) : EReal) = ((Real.log x : ℝ) : EReal) := by
  unfold elog
  rw [if_neg (EReal.coe_ne_top x), EReal.toReal_coe, if_neg (not_le.mpr hx)]

/-- `elog` maps non-sentinel values to non-sentinel values. -/
lemma elog_ne_top {x : EReal} (hx : x ≠ ⊤) : elog x ≠ ⊤ := by
  unfold elog
  rw [if_neg hx]
  split
  · exact bot_ne_top
  · exact EReal.coe_ne_top _

/-- A sentinel probability keeps perturbed confidence `+inf`: adding
finite scaled noise to `inf` yields `inf`. -/
lemma confidence_of_top {n : ℕ} {probs : Fin n → EReal} {temp : ℝ}
    {g : Fin n → ℝ} {i : Fin n} (h : probs i = ⊤) :
    confidence n probs temp g i = ⊤ := by
  unfold confidence
  rw [h, elog_top, EReal.top_add_coe]

/-- A non-sentinel probability has perturbed confidence below the
sentinel for every finite noise value. -/
lemma confidence_lt_top {n : ℕ} {probs : Fin n → EReal} {temp : ℝ}
    {g : Fin n → ℝ} {i : Fin n} (h : probs i ≠ ⊤) :
    confidence n probs temp g i < ⊤ := by
  unfold confidence
  exact EReal.add_lt_top (elog_ne_top h) (EReal.coe_ne_top _)

lemma length_sorted_vals (n : ℕ) (conf : Fin n → EReal) :
    (sorted_vals n conf).length = n := by
  unfold sorted_vals
  rw [List.length_insertionSort, List.length_ofFn]

lemma sorted_vals_sorted (n : ℕ) (conf : Fin n → EReal) :
    (sorted_vals n conf).Sorted (· ≤ ·) :=
  List.sorted_insertionSort _ _

lemma sorted_vals_perm (n : ℕ) (conf : Fin n → EReal) :
    List.Perm (sorted_vals n conf) (List.ofFn conf) :=
  List.perm_insertionSort _ _

/-- The cutoff the policy compares against is one of the perturbed
confidences. -/
lemma cut_off_mem (n k : ℕ) (conf : Fin n → EReal) (h : k - 1 < n) :
    ∃ i, conf i = cut_off n k conf := by
  unfold cut_off
  have hlen : k - 1 < (sorted_vals n conf).length := by
    rw [length_sorted_vals]
    exact h
  rw [List.getD_eq_get _ _ hlen]
  have hmem := (sorted_vals_perm n conf).mem_iff.mp
    (List.get_mem (sorted_vals n conf) _ hlen)
  exact Set.mem_range.mp ((List.mem_ofFn _ _).mp hmem)

/-- Bridge between `List.countP` over `List.ofFn` and the cardinality
of the corresponding index set. -/
lemma countP_ofFn {α : Type} (p : α → Bool) :
    ∀ (n : ℕ) (f : Fin n → α),
      (List.ofFn f).countP p =
        ((Finset.univ : Finset (Fin n)).filter (fun i => p (f i) = true)).card
  | 0, f => by simp
  | n + 1, f => by
    rw [List.ofFn_succ, List.countP_cons, countP_ofFn p n (fun i => f i.succ),
      Fin.card_filter_univ_succ' (fun i => p (f i) = true)]
    by_cases h : p (f 0) = true <;> simp [h, add_comm]

/-- When at least `k` of the perturbed confidences are below the
sentinel, the `k`-th smallest (the policy's cutoff) is too. -/
lemma cut_off_lt_top (n k : ℕ) (conf : Fin n → EReal) (hk1 : 1 ≤ k)
    (hk : k ≤ ((Finset.univ : Finset (Fin n)).filter (fun i => conf i < ⊤)).card) :
    cut_off n k conf < ⊤ := by
  have hcard :
      ((Finset.univ : Finset (Fin n)).filter (fun i => conf i < ⊤)).card ≤ n := by
    apply le_trans (Finset.card_filter_le _ _)
    simp
  have hkn : k ≤ n := le_trans hk hcard
  have hlen : k - 1 < (sorted_vals n conf).length := by
    rw [length_sorted_vals]
    omega
  rw [cut_off, List.getD_eq_get _ _ hlen]
  by_contra hcut
  push_neg at hcut
  have htop : (sorted_vals n conf).get ⟨k - 1, hlen⟩ = ⊤ := top_le_iff.mp hcut
  have hdrop : ∀ a ∈ (sorted_vals n conf).drop (k - 1), ¬(decide (a < ⊤) = true) := by
    intro a ha
    obtain ⟨j, hj⟩ := List.mem_iff_get.mp ha
    have hidx : k - 1 + (j : ℕ) < (sorted_vals n conf).length := by
      have h1 := j.isLt
      have h2 : (List.drop (k - 1) (sorted_vals n conf)).length =
          (sorted_vals n conf).length - (k - 1) := List.length_drop _ _
      omega
    have hget : ((sorted_vals n conf).drop (k - 1)).get j =
        (sorted_vals n conf).get ⟨k - 1 + (j : ℕ), hidx⟩ := by
      rw [List.get_drop]
    have hle : (sorted_vals n conf).get ⟨k - 1, hlen⟩ ≤
        (sorted_vals n conf).get ⟨k - 1 + (j : ℕ), hidx⟩ :=
      (sorted_vals_sorted n conf).rel_get_of_le (by simp)
    rw [htop] at hle
    have : a = ⊤ := by
      rw [← hj, hget]
      exact top_le_iff.mp hle
    simp [this]
  have hzero : ((sorted_vals n conf).drop (k - 1)).countP (fun x => decide (x < ⊤)) = 0 :=
    List.countP_eq_zero.mpr hdrop
  have hsplit : (sorted_vals n conf).countP (fun x => decide (x < ⊤)) ≤ k - 1 := by
    conv_lhs => rw [← List.take_append_drop (k - 1) (sorted_vals n conf)]
    rw [List.countP_append, hzero, Nat.add_zero]
    apply le_trans (List.countP_le_length _)
    rw [List.length_take]
    exact min_le_left _ _
  have hoffn : (List.ofFn conf).countP (fun x => decide (x < ⊤)) =
      ((Finset.univ : Finset (Fin n)).filter (fun i => conf i < ⊤)).card := by
    rw [countP_ofFn]
    congr 1
    apply Finset.filter_congr
    intro i _
    simp
  have hperm := (sorted_vals_perm n conf).countP_eq (fun x => decide (x < ⊤))
  omega

/-- For every finite noise draw, a position whose confidence input is
the `+inf` sentinel is never selected by the remasking policy, as long
as the target masked count does not exceed the number of non-sentinel
positions. -/
lemma not_masked_of_sentinel (n k : ℕ) (probs : Fin n → EReal) (temp : ℝ)
    (g : Fin n → ℝ) (p : Fin n) (hp : probs p = ⊤) (hk1 : 1 ≤ k)
    (hk : k ≤ ((Finset.univ : Finset (Fin n)).filter (fun i => probs i ≠ ⊤)).card) :
    mask_by_random_topk n k probs temp g p = false := by
  have hk' : k ≤ ((Finset.univ : Finset (Fin n)).filter
      (fun i => confidence n probs temp g i < ⊤)).card := by
    refine le_trans hk (Finset.card_le_card ?_)
    intro i hi
    rw [Finset.mem_filter] at hi ⊢
    exact ⟨hi.1, confidence_lt_top hi.2⟩
  have hcut := cut_off_lt_top n k (confidence n probs temp g) hk1 hk'
  unfold mask_by_random_topk
  rw [decide_eq_false_iff_not]
  intro hle
  rw [confidence_of_top hp] at hle
  exact absurd (top_le_iff.mp hle) (ne_of_lt hcut)

/-- The policy always selects at least one position (the one attaining
the cutoff). -/
lemma exists_masked (n k : ℕ) (probs : Fin n → EReal) (temp : ℝ) (g : Fin n → ℝ)
    (hk1 : 1 ≤ k) (hkn : k ≤ n) :
    ∃ i, mask_by_random_topk n k probs temp g i = true := by
  obtain ⟨i, hi⟩ := cut_off_mem n k (confidence n probs temp g) (by omega)
  exact ⟨i, decide_eq_true (le_of_eq hi)⟩

lemma gen_step_sampled_ids (n T : ℕ) (ct : ℝ) (sample : Fin n → Fin codebook_size)
    (prob noise : Fin n → ℝ) (step : ℕ) (cur_ids : Fin n → ℕ) :
    (gen_step n T ct sample prob noise step cur_ids).sampled_ids =
      merge_sampled n cur_ids (fun i => (sample i : ℕ)) := rfl

lemma gen_step_selected_probs (n T : ℕ) (ct : ℝ) (sample : Fin n → Fin codebook_size)
    (prob noise : Fin n → ℝ) (step : ℕ) (cur_ids : Fin n → ℕ) :
    (gen_step n T ct sample prob noise step cur_ids).selected_probs =
      selected_probs_of n cur_ids prob := rfl

lemma gen_step_mask_len (n T : ℕ) (ct : ℝ) (sample : Fin n → Fin codebook_size)
    (prob noise : Fin n → ℝ) (step : ℕ) (cur_ids : Fin n → ℕ) :
    (gen_step n T ct sample prob noise step cur_ids).mask_len =
      mask_len_val n T step (unknown_count n cur_ids) := rfl

lemma gen_step_masking (n T : ℕ) (ct : ℝ) (sample : Fin n → Fin codebook_size)
    (prob noise : Fin n → ℝ) (step : ℕ) (cur_ids : Fin n → ℕ) :
    (gen_step n T ct sample prob noise step cur_ids).masking =
      mask_by_random_topk n (mask_len_val n T step (unknown_count n cur_ids)).toNat
        (selected_probs_of n cur_ids prob)
        (ct * (1 - (step + 1 : ℝ) / (T : ℝ))) noise := rfl

lemma gen_step_token_indices (n T : ℕ) (ct : ℝ) (sample : Fin n → Fin codebook_size)
    (prob noise : Fin n → ℝ) (step : ℕ) (cur_ids : Fin n → ℕ) (i : Fin n) :
    (gen_step n T ct sample prob noise step cur_ids).token_indices i =
      if (gen_step n T ct sample prob noise step cur_ids).masking i then mask_token_id
      else (gen_step n T ct sample prob noise step cur_ids).sampled_ids i := rfl

/-- The confidence inputs below the sentinel are exactly the positions
masked entering the iteration. -/
lemma card_selected_ne_top (n : ℕ) (cur_ids : Fin n → ℕ) (prob : Fin n → ℝ) :
    ((Finset.univ : Finset (Fin n)).filter
        (fun i => selected_probs_of n cur_ids prob i ≠ ⊤)).card =
      unknown_count n cur_ids := by
  unfold unknown_count
  congr 1
  apply Finset.filter_congr
  intro i _
  unfold selected_probs_of
  by_cases h : cur_ids i = mask_token_id <;> simp [h]

lemma mask_len_val_ge_one (L T t u : ℕ) : 1 ≤ mask_len_val L T t u :=
  le_max_left _ _

/-- The computed target masked count never exceeds the number of
currently masked positions (when at least one position is masked). -/
lemma mask_len_val_toNat_le_u (L T t u : ℕ) (hu : 1 ≤ u) :
    (mask_len_val L T t u).toNat ≤ u := by
  rw [Int.toNat_le]
  unfold mask_len_val
  apply max_le
  · exact_mod_cast hu
  · refine le_trans (min_le_left _ _) ?_
    omega

lemma mask_len_val_toNat_le_n (L T t u n : ℕ) (hun : u ≤ n) (hn : 1 ≤ n) :
    (mask_len_val L T t u).toNat ≤ n := by
  rw [Int.toNat_le]
  unfold mask_len_val
  apply max_le
  · exact_mod_cast hn
  · refine le_trans (min_le_left _ _) ?_
    have : (u : ℤ) ≤ (n : ℤ) := by exact_mod_cast hun
    omega

/-- The `torch.log`-based perturbed ordering agrees with the ordering
of the underlying (nonnegative or sentinel) confidence inputs. -/
lemma elog_le_elog_iff {p q : EReal} (hp : 0 ≤ p) (hq : 0 ≤ q) :
    elog p ≤ elog q ↔ p ≤ q := by
  induction p using EReal.rec with
  | h_bot => simp at hp
  | h_top =>
    rw [elog_top]
    constructor
    · intro h
      have htop := top_le_iff.mp h
      by_cases hqt : q = ⊤
      · rw [hqt]
      · exact absurd htop (elog_ne_top hqt)
    · intro h
      rw [top_le_iff.mp h, elog_top]
  | h_real a =>
    induction q using EReal.rec with
    | h_bot => simp at hq
    | h_top => simp [elog_top, le_top]
    | h_real b =>
      have ha : (0 : ℝ) ≤ a := EReal.coe_nonneg.mp hp
      have hb : (0 : ℝ) ≤ b := EReal.coe_nonneg.mp hq
      unfold elog
      rw [if_neg (EReal.coe_ne_top a), if_neg (EReal.coe_ne_top b),
        EReal.toReal_coe, EReal.toReal_coe]
      split_ifs with h1 h2 h2
      · have ha0 : a = 0 := le_antisymm h1 ha
        have hb0 : b = 0 := le_antisymm h2 hb
        simp [ha0, hb0]
      · have ha0 : a = 0 := le_antisymm h1 ha
        have hb' : (0 : ℝ) < b := not_le.mp h2
        exact iff_of_true bot_le (EReal.coe_le_coe_iff.mpr (by linarith))
      · have ha' : (0 : ℝ) < a := not_le.mp h1
        have hb0 : b = 0 := le_antisymm h2 hb
        apply iff_of_false
        · intro hle
          exact absurd (le_bot_iff.mp hle) (EReal.coe_ne_bot _)
        · intro hle
          have hab : a ≤ b := EReal.coe_le_coe_iff.mp hle
          rw [hb0] at hab
          linarith
      · rw [EReal.coe_le_coe_iff, EReal.coe_le_coe_iff]
        exact Real.log_le_log_iff (not_le.mp h1) (not_le.mp h2)

/-- At temperature zero the perturbed confidence is the bare
log-confidence, independent of the noise draw. -/
lemma confidence_zero_temp (n : ℕ) (probs : Fin n → EReal) (g : Fin n → ℝ) :
    confidence n probs 0 g = fun i => elog (probs i) := by
  funext i
  unfold confidence
  rw [zero_mul, EReal.coe_zero, add_zero]

/-- Claim C2: for every iteration `t` of the decoding loop, the target
masked count for the next iteration equals
`max(1, min(currently_masked_count - 1, floor(L * cos(pi/2 * (t+1)/T))))`,
and whenever the count of currently masked positions entering the
iteration is greater than 1, it satisfies
`1 ≤ masked_count ≤ previous_masked_count - 1`. -/
theorem C2_mask_len_formula (L T t u : ℕ) (hu : 1 < u) :
    mask_len_val L T t u =
      max 1 (min ((u : ℤ) - 1)
        ⌊(L : ℝ) * Real.cos (Real.pi / 2 * ((t + 1 : ℝ) / (T : ℝ)))⌋) ∧
    1 ≤ mask_len_val L T t u ∧ mask_len_val L T t u ≤ (u : ℤ) - 1 := by
  refine ⟨rfl, le_max_left _ _, ?_⟩
  have h1 : (1 : ℤ) ≤ (u : ℤ) - 1 := by
    have : (2 : ℤ) ≤ (u : ℤ) := by exact_mod_cast hu
    omega
  exact max_le h1 (min_le_left _ _)

/-- Witness for C2 at the toy instance `L = 4`, `T = 2`, `t = 0`,
`u = 4`. -/
theorem C2_witness :
    1 < 4 ∧
      (mask_len_val 4 2 0 4 =
        max 1 (min ((4 : ℤ) - 1)
          ⌊(4 : ℝ) * Real.cos (Real.pi / 2 * (((0 : ℕ) + 1 : ℝ) / ((2 : ℕ) : ℝ)))⌋) ∧
      1 ≤ mask_len_val 4 2 0 4 ∧ mask_len_val 4 2 0 4 ≤ (4 : ℤ) - 1) :=
  ⟨by norm_num, by exact_mod_cast C2_mask_len_formula 4 2 0 4 (by norm_num)⟩

/-- Claim C3: in the per-iteration merge step, a position that was not
masked entering the iteration keeps its id, and a position that was
masked takes the newly sampled id. -/
theorem C3_merge_keeps_resolved (n T : ℕ) (ct : ℝ) (sample : Fin n → Fin codebook_size)
    (prob noise : Fin n → ℝ) (step : ℕ) (cur_ids : Fin n → ℕ) (i : Fin n) :
    (cur_ids i ≠ mask_token_id →
      (gen_step n T ct sample prob noise step cur_ids).sampled_ids i = cur_ids i) ∧
    (cur_ids i = mask_token_id →
      (gen_step n T ct sample prob noise step cur_ids).sampled_ids i = (sample i : ℕ)) := by
  constructor <;> intro h <;> simp [gen_step, merge_sampled, h]

/-- Claim C9: the step-10 masked-count formula at `L = 4`, `T = 2`
yields exactly the spec's literals: `max(1, min(3, ⌊4·cos(π/4)⌋)) = 2`
after iteration 1, and `max(1, min(1, 0)) = 1` after iteration 2. -/
theorem C9_toy_schedule_literals :
    mask_len_val 4 2 0 4 = 2 ∧ mask_len_val 4 2 1 2 = 1 := by
  have sqrt2_sq : Real.sqrt 2 ^ 2 = 2 := Real.sq_sqrt (by norm_num)
  have sqrt2_nonneg : 0 ≤ Real.sqrt 2 := Real.sqrt_nonneg 2
  constructor
  · unfold mask_len_val
    have harg : Real.pi / 2 * ((((0 : ℕ) : ℝ) + 1) / ((2 : ℕ) : ℝ)) = Real.pi / 4 := by
      push_cast
      ring
    rw [harg, Real.cos_pi_div_four]
    have hfloor : ⌊((4 : ℕ) : ℝ) * (Real.sqrt 2 / 2)⌋ = 2 := by
      rw [Int.floor_eq_iff]
      constructor
      · push_cast
        nlinarith [sqrt2_sq, sqrt2_nonneg]
      · push_cast
        nlinarith [sqrt2_sq, sqrt2_nonneg]
    rw [hfloor]
    norm_num
  · unfold mask_len_val
    have harg : Real.pi / 2 * ((((1 : ℕ) : ℝ) + 1) / ((2 : ℕ) : ℝ)) = Real.pi / 2 := by
      push_cast
      ring
    rw [harg, Real.cos_pi_div_two]
    norm_num

/-- Claim C8: every row (grid position) of the normalized
slot-assignment matrix emitted by `forward_decoder` sums to 1 over the
slots, for any attention scores, any head count and any positive
epsilon guard. -/
theorem C8_slot_attn_row_sums (H : ℕ)
    (scores : Fin H → Fin dec_len → Fin dec_len → ℝ) (epsilon : ℝ)
    (heps : 0 < epsilon) (t : Fin 256) :
    ∑ s, normalized_atts_slots epsilon (atts_of_heads H scores) t s = 1 := by
  have hne : Nonempty (Fin num_slots) := ⟨⟨0, by simp [num_slots]⟩⟩
  have hpos :
      0 < ∑ s' : Fin num_slots,
        (atts_of_heads H scores ⟨(t : ℕ) + 8, by simp only [dec_len, num_slots]; omega⟩
          ⟨(s' : ℕ), by simp only [dec_len, num_slots]; omega⟩ + epsilon) := by
    apply Finset.sum_pos
    · intro s' _
      apply add_pos_of_nonneg_of_pos _ heps
      apply Finset.sum_nonneg
      intro h _
      apply div_nonneg (Real.exp_nonneg _)
      apply Finset.sum_nonneg
      intro j _
      exact Real.exp_nonneg _
    · exact Finset.univ_nonempty
  unfold normalized_atts_slots
  rw [← Finset.sum_div]
  exact div_self (ne_of_gt hpos)

lemma unknown_count_eq_zero (n : ℕ) (cur_ids : Fin n → ℕ)
    (hres : ∀ i, cur_ids i ≠ mask_token_id) : unknown_count n cur_ids = 0 := by
  unfold unknown_count
  rw [Finset.card_eq_zero, Finset.filter_eq_empty_iff]
  intro i _
  exact hres i

lemma unknown_count_le (n : ℕ) (cur_ids : Fin n → ℕ) : unknown_count n cur_ids ≤ n := by
  unfold unknown_count
  apply le_trans (Finset.card_filter_le _ _)
  simp

/-- Inside the loop (`step < num_iter`) the cosine schedule value is
nonnegative. -/
lemma cos_sched_nonneg (T t : ℕ) (ht : t < T) :
    0 ≤ Real.cos (Real.pi / 2 * ((t + 1 : ℝ) / (T : ℝ))) := by
  have hT : (0 : ℝ) < (T : ℝ) := by
    have : 0 < T := by omega
    exact_mod_cast this
  have hθ0 : 0 ≤ Real.pi / 2 * ((t + 1 : ℝ) / (T : ℝ)) := by
    apply mul_nonneg
    · linarith [Real.pi_pos]
    · positivity
  apply Real.cos_nonneg_of_mem_Icc
  constructor
  · linarith [Real.pi_pos]
  · have hr : ((t : ℝ) + 1) / (T : ℝ) ≤ 1 := by
      rw [div_le_one hT]
      exact_mod_cast ht
    calc Real.pi / 2 * ((t + 1 : ℝ) / (T : ℝ)) ≤ Real.pi / 2 * 1 := by
          apply mul_le_mul_of_nonneg_left hr
          linarith [Real.pi_pos]
      _ = Real.pi / 2 := mul_one _

/-- With no masked position entering the iteration the target masked
count is clamped to 1 (for in-range steps). -/
lemma mask_len_val_zero_u (L T t : ℕ) (ht : t < T) : mask_len_val L T t 0 = 1 := by
  unfold mask_len_val
  have hf : 0 ≤ ⌊(L : ℝ) * Real.cos (Real.pi / 2 * ((t + 1 : ℝ) / (T : ℝ)))⌋ :=
    Int.floor_nonneg.mpr (mul_nonneg (by positivity) (cos_sched_nonneg T t ht))
  rw [Nat.cast_zero, min_eq_left (by omega)]
  norm_num

/-- With exactly one masked position entering the iteration the target
masked count is 1. -/
lemma mask_len_val_one_u (L T t : ℕ) : mask_len_val L T t 1 = 1 := by
  unfold mask_len_val
  rw [Nat.cast_one, max_eq_left]
  exact le_trans (min_le_left _ _) (by norm_num)

/-- The merged sampled ids always lie inside the codebook once every
position is either masked or a codebook id. -/
lemma merge_sampled_lt (n : ℕ) (cur_ids : Fin n → ℕ) (sample : Fin n → Fin codebook_size)
    (hcur : ∀ i, cur_ids i = mask_token_id ∨ cur_ids i < codebook_size) (i : Fin n) :
    merge_sampled n cur_ids (fun j => (sample j : ℕ)) i < codebook_size := by
  unfold merge_sampled
  by_cases h : cur_ids i = mask_token_id
  · rw [if_pos h]
    exact (sample i).isLt
  · rw [if_neg h]
    rcases hcur i with h' | h'
    · exact absurd h' h
    · exact h'

lemma codebook_le_mask_id : codebook_size ≤ mask_token_id := by
  norm_num [mask_token_id, vocab_size, codebook_size]

/-- Each position of one iteration's token state is either the mask id
or a codebook id. -/
lemma gen_step_token_bound (n T : ℕ) (ct : ℝ) (sample : Fin n → Fin codebook_size)
    (prob noise : Fin n → ℝ) (step : ℕ) (cur_ids : Fin n → ℕ)
    (hcur : ∀ i, cur_ids i = mask_token_id ∨ cur_ids i < codebook_size) (i : Fin n) :
    (gen_step n T ct sample prob noise step cur_ids).token_indices i = mask_token_id ∨
    (gen_step n T ct sample prob noise step cur_ids).token_indices i < codebook_size := by
  rw [gen_step_token_indices]
  cases hmask : (gen_step n T ct sample prob noise step cur_ids).masking i
  · right
    rw [if_neg (by simp)]
    rw [gen_step_sampled_ids]
    exact merge_sampled_lt n cur_ids sample hcur i
  · left
    rw [if_pos (by simp)]

lemma gen_step_model_eq {n : ℕ} {Img Lat Slot : Type} (T : ℕ) (ct : ℝ)
    (m : MageModel n Img Lat Slot) (slots : Slot) (step : ℕ) (cur_ids : Fin n → ℕ) :
    gen_step_model T ct m slots step cur_ids =
      gen_step n T ct (m.decoder_sample step (m.encode_tokens (token_seq n cur_ids)) slots)
        (m.decoder_prob step (m.encode_tokens (token_seq n cur_ids)) slots)
        (m.noise step) step cur_ids := rfl

/-- On a grid with no masked position, the merge keeps every id but
the remasking policy's cutoff degenerates to the sentinel and every
position is re-masked. -/
lemma gen_step_all_resolved (n T : ℕ) (ct : ℝ) (sample : Fin n → Fin codebook_size)
    (prob noise : Fin n → ℝ) (step : ℕ) (cur_ids : Fin n → ℕ)
    (hres : ∀ i, cur_ids i ≠ mask_token_id) (hstep : step < T) (hn : 1 ≤ n) :
    (gen_step n T ct sample prob noise step cur_ids).sampled_ids = cur_ids ∧
    ∀ i, (gen_step n T ct sample prob noise step cur_ids).token_indices i = mask_token_id := by
  have hmerge : (gen_step n T ct sample prob noise step cur_ids).sampled_ids = cur_ids := by
    rw [gen_step_sampled_ids]
    funext i
    exact if_neg (hres i)
  refine ⟨hmerge, fun i => ?_⟩
  have hu := unknown_count_eq_zero n cur_ids hres
  have hk : (mask_len_val n T step (unknown_count n cur_ids)).toNat = 1 := by
    rw [hu, mask_len_val_zero_u n T step hstep]
    rfl
  have hcut : cut_off n 1
      (confidence n (selected_probs_of n cur_ids prob)
        (ct * (1 - (step + 1 : ℝ) / (T : ℝ))) noise) = ⊤ := by
    obtain ⟨j, hj⟩ := cut_off_mem n 1
      (confidence n (selected_probs_of n cur_ids prob)
        (ct * (1 - (step + 1 : ℝ) / (T : ℝ))) noise) (by omega)
    rw [← hj]
    exact confidence_of_top (if_neg (hres j))
  have hmask : (gen_step n T ct sample prob noise step cur_ids).masking i = true := by
    rw [gen_step_masking, hk]
    unfold mask_by_random_topk
    apply decide_eq_true
    rw [hcut]
    exact le_top
  rw [gen_step_token_indices, hmask, if_pos rfl]

/-- Witness for C8 at zero scores, one head and epsilon 1. -/
theorem C8_witness :
    (0 : ℝ) < 1 ∧
      ∑ s, normalized_atts_slots 1 (atts_of_heads 1 (fun _ _ _ => 0)) 0 s = 1 :=
  ⟨by norm_num, C8_slot_attn_row_sums 1 (fun _ _ _ => 0) 1 (by norm_num) 0⟩

/-- Claim C1 (amended): the slots the decoder receives are computed
once, before the loop, as `slot_attention (forward_encoder image)`,
and every iteration `t` reuses them; in particular two models that
agree on `forward_encoder` and `slot_attention` produce identical
slots at every iteration even when their token encoders differ, so
the slots are not a function of the token sequence entering the
iteration. -/
theorem C1_slots_computed_once {n : ℕ} {Img Lat Slot : Type} (T : ℕ) (ct : ℝ)
    (m₁ m₂ : MageModel n Img Lat Slot) (img : Img)
    (henc : m₁.forward_encoder = m₂.forward_encoder)
    (hslot : m₁.slot_attention = m₂.slot_attention) :
    (∀ t, gen_tokens T ct m₁ img (t + 1) =
      (gen_step_model T ct m₁ (slots_used m₁ img) t
        (gen_tokens T ct m₁ img t)).token_indices) ∧
    slots_used m₁ img = m₁.slot_attention (m₁.forward_encoder img) ∧
    slots_used m₁ img = slots_used m₂ img := by
  refine ⟨fun t => rfl, rfl, ?_⟩
  unfold slots_used
  rw [henc, hslot]

/-- Counterexample to C1 as stated: on a concrete model, already at
iteration 0 the slots used by the decoder (computed before the loop
from the image) differ from slot attention re-run on the encoder
output of the token sequence entering the iteration. -/
theorem C1_counterexample :
    ¬ (∀ t, t < 1 → slots_used modelC (0 : ℕ) = fresh_slots_at 1 1 modelC 0 t) := by
  intro h
  have h0 := h 0 (by norm_num)
  have h1 : slots_used modelC (0 : ℕ) = 0 := rfl
  have h2 : fresh_slots_at 1 1 modelC 0 0 = mask_token_id := rfl
  rw [h1, h2] at h0
  exact absurd h0 (by norm_num [mask_token_id, vocab_size, codebook_size])

/-- Witness for C1 at the two concrete models that differ only in
their token encoder. -/
theorem C1_witness :
    (modelC.forward_encoder = modelC2.forward_encoder ∧
      modelC.slot_attention = modelC2.slot_attention) ∧
    ((∀ t, gen_tokens 1 1 modelC 0 (t + 1) =
        (gen_step_model 1 1 modelC (slots_used modelC 0) t
          (gen_tokens 1 1 modelC 0 t)).token_indices) ∧
      slots_used modelC 0 = modelC.slot_attention (modelC.forward_encoder 0) ∧
      slots_used modelC 0 = slots_used modelC2 0) :=
  ⟨⟨rfl, rfl⟩, C1_slots_computed_once 1 1 modelC modelC2 0 rfl rfl⟩

/-- Claim C4 (amended): positions already resolved before an iteration
receive the sentinel confidence `+inf`, and their protection from
re-masking is deterministic, not probabilistic: for every finite noise
draw, as long as at least one position is masked entering the
iteration, a resolved position is never selected by the remasking
policy (the sentinel survives the added noise), and it keeps its id. -/
theorem C4_resolved_protected (n T : ℕ) (ct : ℝ)
    (sample : Fin n → Fin codebook_size) (prob noise : Fin n → ℝ) (step : ℕ)
    (cur_ids : Fin n → ℕ) (p : Fin n) (hres : cur_ids p ≠ mask_token_id)
    (hu : 1 ≤ unknown_count n cur_ids) :
    (gen_step n T ct sample prob noise step cur_ids).selected_probs p = ⊤ ∧
    (gen_step n T ct sample prob noise step cur_ids).masking p = false ∧
    (gen_step n T ct sample prob noise step cur_ids).token_indices p = cur_ids p := by
  have hsp : selected_probs_of n cur_ids prob p = ⊤ := if_neg hres
  have hk1 : 1 ≤ (mask_len_val n T step (unknown_count n cur_ids)).toNat := by
    have h := mask_len_val_ge_one n T step (unknown_count n cur_ids)
    omega
  have hmask : (gen_step n T ct sample prob noise step cur_ids).masking p = false := by
    rw [gen_step_masking]
    apply not_masked_of_sentinel _ _ _ _ _ _ hsp hk1
    rw [card_selected_ne_top]
    exact mask_len_val_toNat_le_u _ _ _ _ hu
  refine ⟨hsp, hmask, ?_⟩
  rw [gen_step_token_indices, hmask, if_neg (by simp), gen_step_sampled_ids]
  unfold merge_sampled
  exact if_neg hres

/-- Counterexample to C4 as stated: at a nonzero remasking temperature
(base temperature 2, iteration 0 of 2, hence temperature 1), there is
no Gumbel noise draw under which the resolved position 0 of the
concrete grid is selected for re-masking. -/
theorem C4_counterexample :
    ¬ ∃ g : Fin 2 → ℝ,
      (gen_step 2 2 2 (sample0 2) (prob_half 2) g 0 grid_half_masked).masking 0 = true := by
  rintro ⟨g, hg⟩
  have hu : unknown_count 2 grid_half_masked = 1 := by decide
  have hsp : selected_probs_of 2 grid_half_masked (prob_half 2) 0 = ⊤ :=
    if_neg (by decide)
  have hmask : (gen_step 2 2 2 (sample0 2) (prob_half 2) g 0 grid_half_masked).masking 0 =
      false := by
    rw [gen_step_masking]
    apply not_masked_of_sentinel _ _ _ _ _ _ hsp
    · have h := mask_len_val_ge_one 2 2 0 (unknown_count 2 grid_half_masked)
      omega
    · rw [card_selected_ne_top, hu, mask_len_val_one_u]
      rfl
  rw [hg] at hmask
  exact absurd hmask (by simp)

/-- Witness for C4 at the concrete half-masked grid with the all-ones
noise draw. -/
theorem C4_witness :
    (grid_half_masked 0 ≠ mask_token_id ∧ 1 ≤ unknown_count 2 grid_half_masked) ∧
    ((gen_step 2 2 2 (sample0 2) (prob_half 2) (noise1 2) 0 grid_half_masked).selected_probs 0 = ⊤ ∧
      (gen_step 2 2 2 (sample0 2) (prob_half 2) (noise1 2) 0 grid_half_masked).masking 0 = false ∧
      (gen_step 2 2 2 (sample0 2) (prob_half 2) (noise1 2) 0 grid_half_masked).token_indices 0 =
        grid_half_masked 0) :=
  ⟨⟨by decide, by decide⟩,
    C4_resolved_protected 2 2 2 (sample0 2) (prob_half 2) (noise1 2) 0 grid_half_masked 0
      (by decide) (by decide)⟩

/-- Claim C5 (amended): feeding a fully resolved token grid through
one iteration keeps every id in the merge (`sampled_ids` equals the
input grid), but the remasking step then masks every position: with no
masked position the confidence inputs are all the sentinel, the cutoff
is the sentinel, and `inf <= inf` selects everything, so the token
state after the iteration is the mask id everywhere, not the input
grid. -/
theorem C5_resolved_grid_remasked (n T : ℕ) (ct : ℝ)
    (sample : Fin n → Fin codebook_size) (prob noise : Fin n → ℝ) (step : ℕ)
    (cur_ids : Fin n → ℕ) (hres : ∀ i, cur_ids i ≠ mask_token_id)
    (hstep : step < T) (hn : 1 ≤ n) :
    (gen_step n T ct sample prob noise step cur_ids).sampled_ids = cur_ids ∧
    ∀ i, (gen_step n T ct sample prob noise step cur_ids).token_indices i = mask_token_id :=
  gen_step_all_resolved n T ct sample prob noise step cur_ids hres hstep hn

/-- Counterexample to C5 as stated: one iteration on the concrete
fully resolved grid does not leave it unchanged (position 0 becomes
the mask id). -/
theorem C5_counterexample :
    (gen_step 4 1 1 (sample0 4) (prob_half 4) (noise0 4) 0 grid_resolved).token_indices ≠
      grid_resolved := by
  intro heq
  have h := (gen_step_all_resolved 4 1 1 (sample0 4) (prob_half 4) (noise0 4) 0 grid_resolved
    (by decide) (by norm_num) (by norm_num)).2 0
  rw [congrFun heq 0] at h
  exact absurd h (by decide)

/-- Witness for C5 at the concrete fully resolved grid. -/
theorem C5_witness :
    ((∀ i, grid_resolved i ≠ mask_token_id) ∧ 0 < 1 ∧ 1 ≤ 4) ∧
    ((gen_step 4 1 1 (sample0 4) (prob_half 4) (noise0 4) 0 grid_resolved).sampled_ids =
        grid_resolved ∧
      ∀ i, (gen_step 4 1 1 (sample0 4) (prob_half 4) (noise0 4) 0
        grid_resolved).token_indices i = mask_token_id) :=
  ⟨⟨by decide, by norm_num, by norm_num⟩,
    C5_resolved_grid_remasked 4 1 1 (sample0 4) (prob_half 4) (noise0 4) 0 grid_resolved
      (by decide) (by norm_num) (by norm_num)⟩

/-- Claim C6 (amended): the remasking policy perturbs the natural log
of each confidence score by adding independent scaled Gumbel noise,
sorts the perturbed values ascending, takes the masked-count-th
smallest as the cutoff and masks exactly the positions whose perturbed
value is at most the cutoff; inside the loop the temperature passed at
iteration `step` is the base temperature times `1 - (step+1)/T`. -/
theorem C6_policy_structure (n k : ℕ) (probs : Fin n → EReal) (temp : ℝ)
    (g : Fin n → ℝ) :
    (sorted_vals n (confidence n probs temp g)).Sorted (· ≤ ·) ∧
    List.Perm (sorted_vals n (confidence n probs temp g))
      (List.ofFn (confidence n probs temp g)) ∧
    (∀ i, confidence n probs temp g i = elog (probs i) + ((temp * g i : ℝ) : EReal)) ∧
    (∀ i, mask_by_random_topk n k probs temp g i = true ↔
      confidence n probs temp g i ≤
        (sorted_vals n (confidence n probs temp g)).getD (k - 1) ⊥) ∧
    (∀ (T step : ℕ) (ct : ℝ) (sample : Fin n → Fin codebook_size)
      (prob noise : Fin n → ℝ) (cur_ids : Fin n → ℕ),
      (gen_step n T ct sample prob noise step cur_ids).masking =
        mask_by_random_topk n (mask_len_val n T step (unknown_count n cur_ids)).toNat
          (selected_probs_of n cur_ids prob)
          (ct * (1 - (step + 1 : ℝ) / (T : ℝ))) noise) := by
  refine ⟨sorted_vals_sorted _ _, sorted_vals_perm _ _, fun i => rfl, fun i => ?_,
    fun _ _ _ _ _ _ _ => rfl⟩
  unfold mask_by_random_topk cut_off
  rw [decide_eq_true_eq]

/-- Counterexample to C6 as stated: with probabilities 1/2 and 1/4,
noise (0, 3/10) and temperature 1, the code's policy (which perturbs
the log of the confidence) keeps position 0 unmasked, while perturbing
the confidence score itself as the claim words it masks position 0. -/
theorem C6_counterexample :
    mask_by_random_topk 2 1 probsC6 1 noiseC6 0 = false ∧
    spec_mask_by_topk 2 1 probsC6 1 noiseC6 0 = true := by
  have hp0 : probsC6 0 = ((1 / 2 : ℝ) : EReal) := rfl
  have hp1 : probsC6 1 = ((1 / 4 : ℝ) : EReal) := rfl
  have hg0 : noiseC6 0 = 0 := rfl
  have hg1 : noiseC6 1 = 3 / 10 := rfl
  have hlog2 : Real.log (1 / 2 : ℝ) = -Real.log 2 := by
    rw [one_div, Real.log_inv]
  have hlog4 : Real.log (1 / 4 : ℝ) = 2 * Real.log (1 / 2 : ℝ) := by
    rw [show (1 / 4 : ℝ) = (1 / 2) ^ 2 by norm_num, Real.log_pow]
    push_cast
    ring
  have hlt : Real.log (1 / 4 : ℝ) + 3 / 10 < Real.log (1 / 2 : ℝ) := by
    rw [hlog4, hlog2]
    linarith [Real.log_two_gt_d9]
  have hc0 : confidence 2 probsC6 1 noiseC6 0 = ((Real.log (1 / 2 : ℝ) : ℝ) : EReal) := by
    unfold confidence
    rw [hp0, hg0, elog_coe_of_pos (by norm_num)]
    norm_num
  have hc1 : confidence 2 probsC6 1 noiseC6 1 =
      ((Real.log (1 / 4 : ℝ) + 3 / 10 : ℝ) : EReal) := by
    unfold confidence
    rw [hp1, hg1, elog_coe_of_pos (by norm_num), ← EReal.coe_add]
    norm_num
  have hofn : List.ofFn (confidence 2 probsC6 1 noiseC6) =
      [confidence 2 probsC6 1 noiseC6 0, confidence 2 probsC6 1 noiseC6 1] := by
    simp [List.ofFn_succ]
  have hsorted : sorted_vals 2 (confidence 2 probsC6 1 noiseC6) =
      [confidence 2 probsC6 1 noiseC6 1, confidence 2 probsC6 1 noiseC6 0] := by
    unfold sorted_vals
    rw [hofn]
    simp only [List.insertionSort, List.orderedInsert]
    rw [if_neg]
    rw [hc0, hc1]
    intro hle
    exact absurd (EReal.coe_le_coe_iff.mp hle) (not_le.mpr hlt)
  constructor
  · unfold mask_by_random_topk cut_off
    rw [decide_eq_false_iff_not, hsorted]
    intro hle
    have hle0 : confidence 2 probsC6 1 noiseC6 0 ≤ confidence 2 probsC6 1 noiseC6 1 := by
      simpa using hle
    rw [hc0, hc1] at hle0
    exact absurd (EReal.coe_le_coe_iff.mp hle0) (not_le.mpr hlt)
  · have hs0 : spec_confidence 2 probsC6 1 noiseC6 0 = ((1 / 2 : ℝ) : EReal) := by
      unfold spec_confidence
      rw [hp0, hg0]
      norm_num
    have hs1 : spec_confidence 2 probsC6 1 noiseC6 1 = ((1 / 4 + 3 / 10 : ℝ) : EReal) := by
      unfold spec_confidence
      rw [hp1, hg1, ← EReal.coe_add]
      norm_num
    have hofn2 : List.ofFn (spec_confidence 2 probsC6 1 noiseC6) =
        [spec_confidence 2 probsC6 1 noiseC6 0, spec_confidence 2 probsC6 1 noiseC6 1] := by
      simp [List.ofFn_succ]
    have hsorted2 : sorted_vals 2 (spec_confidence 2 probsC6 1 noiseC6) =
        [spec_confidence 2 probsC6 1 noiseC6 0, spec_confidence 2 probsC6 1 noiseC6 1] := by
      unfold sorted_vals
      rw [hofn2]
      simp only [List.insertionSort, List.orderedInsert]
      rw [if_pos]
      rw [hs0, hs1]
      exact EReal.coe_le_coe_iff.mpr (by norm_num)
    unfold spec_mask_by_topk cut_off
    rw [hsorted2]
    apply decide_eq_true
    simp

/-- Claim C7: at temperature 0 the remasking policy is deterministic —
any two noise draws produce identical masked sets — and the selected
set is exactly the positions whose confidence input is at most the
masked-count-th smallest confidence input. -/
theorem C7_zero_temp_deterministic (n k : ℕ) (probs : Fin n → EReal)
    (g₁ g₂ : Fin n → ℝ) (hp : ∀ i, 0 ≤ probs i) (hk1 : 1 ≤ k) (hkn : k ≤ n) :
    mask_by_random_topk n k probs 0 g₁ = mask_by_random_topk n k probs 0 g₂ ∧
    (∀ i, mask_by_random_topk n k probs 0 g₁ i = true ↔
      probs i ≤ cut_off n k probs) := by
  have hconf1 := confidence_zero_temp n probs g₁
  have hconf2 := confidence_zero_temp n probs g₂
  constructor
  · unfold mask_by_random_topk
    rw [hconf1, hconf2]
  · intro i
    unfold mask_by_random_topk
    rw [hconf1, decide_eq_true_eq]
    have hmap : cut_off n k (fun j => elog (probs j)) = elog (cut_off n k probs) := by
      unfold cut_off sorted_vals
      have hl : ∀ a ∈ List.ofFn probs, ∀ b ∈ List.ofFn probs,
          a ≤ b ↔ elog a ≤ elog b := by
        intro a ha b hb
        obtain ⟨ia, hia⟩ := Set.mem_range.mp ((List.mem_ofFn _ _).mp ha)
        obtain ⟨ib, hib⟩ := Set.mem_range.mp ((List.mem_ofFn _ _).mp hb)
        exact (elog_le_elog_iff (hia ▸ hp ia) (hib ▸ hp ib)).symm
      have hmapsort :=
        List.map_insertionSort (α := EReal) (β := EReal) (· ≤ ·) (· ≤ ·) elog
          (List.ofFn probs) hl
      have hofn : List.ofFn (fun j => elog (probs j)) = (List.ofFn probs).map elog :=
        (List.map_ofFn probs elog).symm
      rw [hofn, ← hmapsort]
      have hlen : k - 1 < ((List.ofFn probs).insertionSort (· ≤ ·)).length := by
        rw [List.length_insertionSort, List.length_ofFn]
        omega
      have hlen2 : k - 1 < (((List.ofFn probs).insertionSort (· ≤ ·)).map elog).length := by
        rw [List.length_map]
        exact hlen
      rw [List.getD_eq_get _ _ hlen, List.getD_eq_get _ _ hlen2, List.get_map]
    rw [hmap]
    apply elog_le_elog_iff (hp i)
    obtain ⟨j, hj⟩ := cut_off_mem n k probs (by omega)
    rw [← hj]
    exact hp j

/-- Witness for C7 at the concrete probabilities 1, 2 with two
different noise draws. -/
theorem C7_witness :
    ((∀ i, (0 : EReal) ≤ probsC7 i) ∧ 1 ≤ 1 ∧ 1 ≤ 2) ∧
    (mask_by_random_topk 2 1 probsC7 0 (noise0 2) =
        mask_by_random_topk 2 1 probsC7 0 (noise1 2) ∧
      (∀ i, mask_by_random_topk 2 1 probsC7 0 (noise0 2) i = true ↔
        probsC7 i ≤ cut_off 2 1 probsC7)) :=
  ⟨⟨by
      intro i
      fin_cases i <;> simp [probsC7],
    le_rfl, by norm_num⟩,
    C7_zero_temp_deterministic 2 1 probsC7 (noise0 2) (noise1 2)
      (by
        intro i
        fin_cases i <;> simp [probsC7])
      le_rfl (by norm_num)⟩

/-- Claim C10: the grid handed to the final vqgan decode is the last
iteration's merged sampled ids, taken before that iteration's
remasking; every one of its ids lies in `[0, codebook_size)` and none
is the mask id, while the re-masked `token_indices` state after the
final iteration still holds at least one mask id. -/
theorem C10_decode_grid_valid {n : ℕ} {Img Lat Slot : Type} (T : ℕ) (ct : ℝ)
    (m : MageModel n Img Lat Slot) (img : Img) (hT : 1 ≤ T) (hn : 1 ≤ n) :
    gen_decode_input T ct m img =
      (gen_step_model T ct m (slots_used m img) (T - 1)
        (gen_tokens T ct m img (T - 1))).sampled_ids ∧
    (∀ i, gen_decode_input T ct m img i < codebook_size ∧
      gen_decode_input T ct m img i ≠ mask_token_id) ∧
    (∃ i, gen_tokens T ct m img T i = mask_token_id) := by
  have hinv : ∀ t i, gen_tokens T ct m img t i = mask_token_id ∨
      gen_tokens T ct m img t i < codebook_size := by
    intro t
    induction t with
    | zero => exact fun i => Or.inl rfl
    | succ t ih =>
      intro i
      have hstep : gen_tokens T ct m img (t + 1) i =
          (gen_step_model T ct m (slots_used m img) t
            (gen_tokens T ct m img t)).token_indices i := rfl
      rw [hstep, gen_step_model_eq]
      exact gen_step_token_bound _ _ _ _ _ _ _ _ ih i
  refine ⟨rfl, fun i => ?_, ?_⟩
  · have hlt : gen_decode_input T ct m img i < codebook_size := by
      have hd : gen_decode_input T ct m img i =
          (gen_step n T ct
            (m.decoder_sample (T - 1)
              (m.encode_tokens (token_seq n (gen_tokens T ct m img (T - 1))))
              (slots_used m img))
            (m.decoder_prob (T - 1)
              (m.encode_tokens (token_seq n (gen_tokens T ct m img (T - 1))))
              (slots_used m img))
            (m.noise (T - 1)) (T - 1) (gen_tokens T ct m img (T - 1))).sampled_ids i := rfl
      rw [hd, gen_step_sampled_ids]
      exact merge_sampled_lt n _ _ (hinv (T - 1)) i
    refine ⟨hlt, fun hmask => ?_⟩
    rw [hmask] at hlt
    exact absurd hlt (not_lt.mpr codebook_le_mask_id)
  · obtain ⟨t0, hT0⟩ : ∃ t0, T = t0 + 1 := ⟨T - 1, by omega⟩
    subst hT0
    have hfin : gen_tokens (t0 + 1) ct m img (t0 + 1) =
        (gen_step_model (t0 + 1) ct m (slots_used m img) t0
          (gen_tokens (t0 + 1) ct m img t0)).token_indices := rfl
    have hk1 : 1 ≤ (mask_len_val n (t0 + 1) t0
        (unknown_count n (gen_tokens (t0 + 1) ct m img t0))).toNat := by
      have h := mask_len_val_ge_one n (t0 + 1) t0
        (unknown_count n (gen_tokens (t0 + 1) ct m img t0))
      omega
    have hkn : (mask_len_val n (t0 + 1) t0
        (unknown_count n (gen_tokens (t0 + 1) ct m img t0))).toNat ≤ n :=
      mask_len_val_toNat_le_n _ _ _ _ _ (unknown_count_le _ _) hn
    obtain ⟨i, hi⟩ := exists_masked n
      (mask_len_val n (t0 + 1) t0
        (unknown_count n (gen_tokens (t0 + 1) ct m img t0))).toNat
      (selected_probs_of n (gen_tokens (t0 + 1) ct m img t0)
        (m.decoder_prob t0
          (m.encode_tokens (token_seq n (gen_tokens (t0 + 1) ct m img t0)))
          (slots_used m img)))
      (ct * (1 - (t0 + 1 : ℝ) / ((t0 + 1 : ℕ) : ℝ))) (m.noise t0) hk1 hkn
    refine ⟨i, ?_⟩
    rw [hfin, gen_step_model_eq, gen_step_token_indices]
    have hmask : (gen_step n (t0 + 1) ct
        (m.decoder_sample t0
          (m.encode_tokens (token_seq n (gen_tokens (t0 + 1) ct m img t0)))
          (slots_used m img))
        (m.decoder_prob t0
          (m.encode_tokens (token_seq n (gen_tokens (t0 + 1) ct m img t0)))
          (slots_used m img))
        (m.noise t0) t0 (gen_tokens (t0 + 1) ct m img t0)).masking i = true := by
      rw [gen_step_masking]
      exact hi
    rw [hmask, if_pos rfl]

/-- Witness for C10 at the concrete one-token model. -/
theorem C10_witness :
    ((1 : ℕ) ≤ 1 ∧ (1 : ℕ) ≤ 1) ∧
    (gen_decode_input 1 1 modelC 0 =
        (gen_step_model 1 1 modelC (slots_used modelC 0) (1 - 1)
          (gen_tokens 1 1 modelC 0 (1 - 1))).sampled_ids ∧
      (∀ i, gen_decode_input 1 1 modelC 0 i < codebook_size ∧
        gen_decode_input 1 1 modelC 0 i ≠ mask_token_id) ∧
      (∃ i, gen_tokens 1 1 modelC 0 1 i = mask_token_id)) :=
  ⟨⟨le_rfl, le_rfl⟩, C10_decode_grid_valid 1 1 modelC 0 le_rfl le_rfl⟩

end MageSpot
